import Mathlib

/-!
Shallow embedding of the blockchain core implemented in `src/区块链代码.py`:
the `Transaction` / `Block` data model with the two-phase cached hash, the
`PoWValidator` mining search, the `PoSValidator` weighted-stake registry and
selection, and the `Blockchain` append protocol (`async_add_block`), `stake`
and `get_stake`.

External collaborators are passed in explicitly instead of being ambient:
`hashlib.sha256` becomes a function parameter `sha : Bytes → Bytes`, the ecdsa
capability (`VerifyingKey.from_string` + `verify`, both of which may raise)
becomes `verify : Bytes → Bytes → Bytes → Except PyErr Bool`, `time.time()`
becomes explicit rational timestamps, `random.randint` / `random.uniform` /
the salted builtin `hash` become explicit inputs.  Python exceptions are
modelled with `Except PyErr`, Python `dict` (insertion-ordered, unique keys)
with an ordered association list.
-/

namespace BCModel

/-- Python exceptions raised by the source: `ValueError(msg)`,
`KeyError` (dict subscript miss), `RuntimeError(msg)`, `IndexError`
(sequence subscript miss). -/
inductive PyErr where
  | valueError (msg : String)
  | keyError
  | runtimeError (msg : String)
  | indexError
deriving DecidableEq

/-- A Python `bytes` value: a list of byte values. -/
abbrev Bytes := List Nat

/-- Encoding of a Python `str` as `bytes` (`str.encode()`).  All strings the
source hashes or compares are ASCII, where UTF-8 is the identity on code
points. -/
def encodeStr (s : String) : Bytes :=
  s.data.map Char.toNat

/-- Lowercase hexadecimal digit, as produced by Python `bytes.hex()`. -/
def hexDigit (n : Nat) : Char :=
  if n < 10 then Char.ofNat (48 + n) else Char.ofNat (87 + n)

/-- Two lowercase hex digits for one byte. -/
def byteHex (b : Nat) : String :=
  String.mk [hexDigit (b / 16 % 16), hexDigit (b % 16)]

/-- Python `bytes.hex()`: lowercase, two digits per byte. -/
def bytesHex (bs : Bytes) : String :=
  String.join (bs.map byteHex)

/-- Textual form of a timestamp.  The source interpolates a Python `float`
into an f-string; times are modelled as rationals and no claim depends on the
exact decimal rendering, only on the encoding being a function of the value. -/
def ratStr (q : Rat) : String :=
  if q.den = 1 then toString q.num else toString q.num ++ "/" ++ toString q.den

/-- Quote character chosen by Python `repr` for a `bytes` literal: a single
quote (39) unless the data contains one and no double quote (34). -/
def pyReprQuote (bs : Bytes) : Nat :=
  if bs.contains 39 ∧ ¬ bs.contains 34 then 34 else 39

/-- Escaping of one byte inside a Python `bytes` repr (92 is the
backslash, 116/110/114 are t/n/r, 120 is x). -/
def pyByteEscape (q b : Nat) : Bytes :=
  if b = 92 then [92, 92]
  else if b = q then [92, b]
  else if b = 9 then [92, 116]
  else if b = 10 then [92, 110]
  else if b = 13 then [92, 114]
  else if 32 ≤ b ∧ b < 127 then [b]
  else [92, 120] ++ encodeStr (byteHex b)

/-- Python `repr` of a `bytes` value, at byte level: `b`, a quote, the escaped
data, a quote.  This is what an f-string inserts for a `bytes` field
(`f"{b}"` calls `str(b) = repr(b)`), as happens in `Transaction.validate`. -/
def pyBytesRepr (bs : Bytes) : Bytes :=
  let q := pyReprQuote bs
  [98, q] ++ (bs.map (pyByteEscape q)).flatten ++ [q]

/-- Decidable equality of `Except` results, for evaluating concrete runs. -/
instance instDecidableEqExcept {ε α : Type} [DecidableEq ε] [DecidableEq α] :
    DecidableEq (Except ε α)
  | .ok a, .ok b =>
    if h : a = b then .isTrue (by rw [h]) else .isFalse (by intro c; cases c; exact h rfl)
  | .ok _, .error _ => .isFalse (by intro c; cases c)
  | .error _, .ok _ => .isFalse (by intro c; cases c)
  | .error a, .error b =>
    if h : a = b then .isTrue (by rw [h]) else .isFalse (by intro c; cases c; exact h rfl)

/-- The `Transaction` dataclass: an immutable signed transfer record. -/
structure Transaction where
  sender : Bytes
  receiver : Bytes
  amount : Int
  signature : Bytes
  timestamp : Rat
deriving DecidableEq

/-- The message `Transaction.validate` verifies the signature against:
`f"{self.receiver}{self.amount}".encode()`.  Since `receiver` is `bytes`, the
f-string inserts its Python repr (with the `b` prefix and quotes), followed by
the decimal form of `amount`. -/
def txMessage (t : Transaction) : Bytes :=
  pyBytesRepr t.receiver ++ encodeStr (toString t.amount)

/-- Modelled from the spec (for comparison with `txMessage`): the message the
spec says is signed and verified, the concatenation of the raw `receiver`
bytes with the base-10 textual form of `amount`. -/
def txMessageSpec (t : Transaction) : Bytes :=
  t.receiver ++ encodeStr (toString t.amount)

/-- `Transaction.validate`: reconstruct the verifying key from `sender` and
verify `signature` over `txMessage`; the whole `try` block converts any raise
from key reconstruction or verification into `False`.  The external ecdsa
capability is the `verify` parameter, which covers both fallible steps. -/
def Transaction.validate (verify : Bytes → Bytes → Bytes → Except PyErr Bool)
    (t : Transaction) : Bool :=
  match verify t.sender t.signature (txMessage t) with
  | .ok r => r
  | .error _ => false

/-- The `Block` class.  `precomputed` is the `_precomputed` instance cache
(`None` initially), `hash` the stored digest.  The source stores transactions
in a tuple; the immutability check of the constructor is represented by the
immutable `List`. -/
structure Block where
  index : Int
  timestamp : Rat
  transactions : List Transaction
  prev_hash : Bytes
  nonce : Int
  precomputed : Option Bytes
  hash : Bytes
deriving DecidableEq

/-- Python truthiness of the `_precomputed` cache slot: falsy when `None`
(and, vacuously for a real digest, when empty). -/
def pythonFalsy : Option Bytes → Bool
  | none => true
  | some d => d.isEmpty

/-- The static base string `f"{self.index}{self.timestamp}{self.prev_hash.hex()}"`. -/
def baseStr (b : Block) : String :=
  toString b.index ++ ratStr b.timestamp ++ bytesHex b.prev_hash

/-- The dynamic string `f"{self.nonce}{len(self.transactions)}"`. -/
def dynamicStr (b : Block) : String :=
  toString b.nonce ++ toString b.transactions.length

/-- `Block.calculate_hash`: if the `_precomputed` cache is falsy, fill it with
the sha256 of the base string; then return the sha256 of the cached static
digest concatenated with the encoded dynamic string.  Returns the digest and
the (possibly cache-updated) instance. -/
def Block.calculate_hash (sha : Bytes → Bytes) (b : Block) : Bytes × Block :=
  let b2 := if pythonFalsy b.precomputed then
              { b with precomputed := some (sha (encodeStr (baseStr b))) }
            else b
  (sha (b2.precomputed.getD [] ++ encodeStr (dynamicStr b2)), b2)

/-- Body of the `Block` constructor after its argument checks: store the
fields, initialize the cache to `None`, compute and store `hash`. -/
def Block.build (sha : Bytes → Bytes) (index : Int) (timestamp : Rat)
    (transactions : List Transaction) (prev_hash : Bytes) (nonce : Int) : Block :=
  let b0 : Block := ⟨index, timestamp, transactions, prev_hash, nonce, none, []⟩
  let r := Block.calculate_hash sha b0
  { r.2 with hash := r.1 }

/-- The `Block` constructor: rejects a negative index with a `ValueError`
(the tuple check on `transactions` is enforced by the immutable list type). -/
def Block.make (sha : Bytes → Bytes) (index : Int) (timestamp : Rat)
    (transactions : List Transaction) (prev_hash : Bytes) (nonce : Int) :
    Except PyErr Block :=
  if index < 0 then .error (.valueError "区块索引必须为非负整数")
  else .ok (Block.build sha index timestamp transactions prev_hash nonce)

/-- The `PoWValidator`: only configured state is the difficulty (the source
default is 4). -/
structure PoWValidator where
  difficulty : Nat
deriving DecidableEq

/-- `PoWValidator.validate`: `block.hash[:difficulty] == b"\x00" * difficulty`.
Python slicing truncates a short hash, so a hash shorter than `difficulty`
compares unequal, exactly as `List.take` does. -/
def PoWValidator.validate (pv : PoWValidator) (b : Block) : Bool :=
  b.hash.take pv.difficulty == List.replicate pv.difficulty 0

/-- One iteration sequence of the `for i in range(1000)` loop of `mine`,
starting at loop counter `i` with `n` iterations left: assign
`block.nonce = base_nonce + i` (a plain attribute write — nothing recomputes
`hash`), return the block if `validate` succeeds, else continue on the mutated
block. -/
def PoWValidator.mineGo (pv : PoWValidator) (base : Int) :
    Block → Nat → Nat → Option Block × Block
  | b, _, 0 => (none, b)
  | b, i, n + 1 =>
    let b2 := { b with nonce := base + (i : Int) }
    if pv.validate b2 then (some b2, b2) else PoWValidator.mineGo pv base b2 (i + 1) n

/-- One full batch of `mine`: 1000 consecutive nonces from `base`.  Returns
the successful block (if any) and the mutated block. -/
def PoWValidator.mineBatch (pv : PoWValidator) (b : Block) (base : Int) :
    Option Block × Block :=
  PoWValidator.mineGo pv base b 0 1000

/-- `PoWValidator.mine`: repeated batches, one per random `base_nonce` drawn
by `random.randint(0, 1000000)`.  The random draws are supplied as the list
`bases`; `none` means every supplied batch failed, where the source keeps
recursing (`return self.mine(block)`) with further draws. -/
def PoWValidator.mine (pv : PoWValidator) : Block → List Int → Option Block
  | _, [] => none
  | b, base :: rest =>
    match PoWValidator.mineBatch pv b base with
    | (some b2, _) => some b2
    | (none, b2) => PoWValidator.mine pv b2 rest

/-- Lookup in an insertion-ordered Python dict (`d[k]` / `d.get(k)`). -/
def dictGet {α : Type} : List (Bytes × α) → Bytes → Option α
  | [], _ => none
  | p :: rest, k => if p.1 = k then some p.2 else dictGet rest k

/-- Assignment in an insertion-ordered Python dict (`d[k] = v`): overwrite in
place if the key is present (keys are unique), else append. -/
def dictSet {α : Type} : List (Bytes × α) → Bytes → α → List (Bytes × α)
  | [], k, v => [(k, v)]
  | p :: rest, k, v => if p.1 = k then (k, v) :: rest else p :: dictSet rest k v

/-- The `PoSValidator` registry: `stakes` and `stake_dates` dicts. -/
structure PoSValidator where
  stakes : List (Bytes × Int)
  stake_dates : List (Bytes × Rat)
deriving DecidableEq

/-- `PoSValidator.add_stake` at current time `now`: reject a non-positive
amount with a `ValueError`, otherwise add to the existing stake
(`stakes.get(validator, 0) + amount`) and reset the stake date to `now`. -/
def PoSValidator.add_stake (pv : PoSValidator) (now : Rat) (validator : Bytes)
    (amount : Int) : Except PyErr PoSValidator :=
  if amount ≤ 0 then .error (.valueError "质押金额必须大于0")
  else .ok { stakes := dictSet pv.stakes validator ((dictGet pv.stakes validator).getD 0 + amount),
             stake_dates := dictSet pv.stake_dates validator now }

/-- `PoSValidator.get_weighted_stake` at current time `now`:
`self.stakes[validator]` and `self.stake_dates[validator]` raise `KeyError`
on a missing key; otherwise `stake * (1 + age / 86400)` with
`age = now - stake_date`. -/
def PoSValidator.get_weighted_stake (pv : PoSValidator) (now : Rat)
    (validator : Bytes) : Except PyErr Rat :=
  match dictGet pv.stakes validator with
  | none => .error .keyError
  | some stake =>
    match dictGet pv.stake_dates validator with
    | none => .error .keyError
    | some date => .ok ((stake : Rat) * (1 + (now - date) / 86400))

/-- `sum(self.get_weighted_stake(v) for v in self.stakes)`, left to right,
propagating any raise. -/
def PoSValidator.sum_weighted (pv : PoSValidator) (now : Rat) :
    List (Bytes × Int) → Except PyErr Rat
  | [] => .ok 0
  | p :: rest =>
    match PoSValidator.get_weighted_stake pv now p.1 with
    | .error e => .error e
    | .ok w =>
      match PoSValidator.sum_weighted pv now rest with
      | .error e => .error e
      | .ok s => .ok (w + s)

/-- The error raised when the selection loop falls off the end of the
registry: `RuntimeError("未能选择验证者")` — the `SelectionFailed` condition of
the spec. -/
def selectionFailedError : PyErr := .runtimeError "未能选择验证者"

/-- The `for validator in self.stakes` loop of `select_validator`: accumulate
weighted stakes in registration order, returning the first validator whose
running sum meets or exceeds the draw `r`; falling off the end raises the
generic `RuntimeError`. -/
def PoSValidator.selectGo (pv : PoSValidator) (now r : Rat) :
    List (Bytes × Int) → Rat → Except PyErr Bytes
  | [], _ => .error selectionFailedError
  | p :: rest, current =>
    match PoSValidator.get_weighted_stake pv now p.1 with
    | .error e => .error e
    | .ok w =>
      if current + w ≥ r then .ok p.1
      else PoSValidator.selectGo pv now r rest (current + w)

/-- `PoSValidator.select_validator`: compute the total weighted stake, draw
`r` (= `random.uniform(0, total)`, supplied by the caller with
`0 ≤ r ≤ total`), then scan the registry.  There is no special case for an
empty registry. -/
def PoSValidator.select_validator (pv : PoSValidator) (now r : Rat) :
    Except PyErr Bytes :=
  match PoSValidator.sum_weighted pv now pv.stakes with
  | .error e => .error e
  | .ok _total => PoSValidator.selectGo pv now r pv.stakes 0

/-- The `Blockchain`: the chain, both validators and the two metrics lists
(`metrics['block_times']`, `metrics['tx_counts']`). -/
structure Blockchain where
  chain : List Block
  pow_validator : PoWValidator
  pos_validator : PoSValidator
  block_times : List Rat
  tx_counts : List Nat
deriving DecidableEq

/-- `Blockchain.create_genesis_block`: `Block(0, time.time(), tuple(), b"\x00"*32)`. -/
def create_genesis_block (sha : Bytes → Bytes) (now : Rat) : Block :=
  Block.build sha 0 now [] (List.replicate 32 0) 0

/-- The `Blockchain` constructor: genesis chain, `PoWValidator()` with the
default difficulty 4, empty `PoSValidator`, empty metrics. -/
def Blockchain.init (sha : Bytes → Bytes) (now : Rat) : Blockchain :=
  { chain := [create_genesis_block sha now]
    pow_validator := ⟨4⟩
    pos_validator := ⟨[], []⟩
    block_times := []
    tx_counts := [] }

/-- The ambient effects one `async_add_block` call consumes: the ecdsa
capability, the pow random base nonces (one per attempted batch; the source
draws indefinitely many), the pos uniform draw and the time at which the
selection weighs stakes, the salted Python builtin `hash` on validator
addresses, and the wall-clock readings at entry and at metrics recording. -/
structure Env where
  verify : Bytes → Bytes → Bytes → Except PyErr Bool
  bases : List Int
  draw : Rat
  selTime : Rat
  pyHash : Bytes → Int
  startTime : Rat
  endTime : Rat

/-- The consensus branch of `async_add_block`: `"pow"` runs `mine` (whose
non-termination is `none`), `"pos"` selects a validator and assigns
`block.nonce = hash(validator)` (a plain attribute write — `hash` is not
recomputed), anything else raises `ValueError("不支持的共识机制")`. -/
def Blockchain.consensusStep (bc : Blockchain) (env : Env) (block : Block)
    (consensus : String) : Option (Except PyErr Block) :=
  if consensus = "pow" then
    match PoWValidator.mine bc.pow_validator block env.bases with
    | none => none
    | some b => some (.ok b)
  else if consensus = "pos" then
    match PoSValidator.select_validator bc.pos_validator env.selTime env.draw with
    | .error e => some (.error e)
    | .ok v => some (.ok { block with nonce := env.pyHash v })
  else some (.error (.valueError "不支持的共识机制"))

/-- `Blockchain.async_add_block`: validate every transaction (raising
`ValueError("包含无效交易")` if any fails), run the consensus branch, overwrite
the candidate's `prev_hash` with the chain tip's hash (again a plain
attribute write, with no hash recomputation), append, and record metrics.
The result pairs the raised exception or success with the post-call
blockchain state; `none` models a pow search that never returns (the source
mutates nothing while it spins). -/
def Blockchain.async_add_block (bc : Blockchain) (env : Env) (block : Block)
    (consensus : String) : Option (Except PyErr Unit × Blockchain) :=
  if block.transactions.all (Transaction.validate env.verify) then
    match Blockchain.consensusStep bc env block consensus with
    | none => none
    | some (.error e) => some (.error e, bc)
    | some (.ok b) =>
      match bc.chain.getLast? with
      | none => some (.error .indexError, bc)
      | some tip =>
        some (.ok (), { bc with
          chain := bc.chain ++ [{ b with prev_hash := tip.hash }]
          block_times := bc.block_times ++ [env.endTime - env.startTime]
          tx_counts := bc.tx_counts ++ [b.transactions.length] })
  else some (.error (.valueError "包含无效交易"), bc)

/-- `Blockchain.stake`: the overflow guard (`amount > 2**64` raises
`ValueError("无效的质押金额")`; the `isinstance` check is the `Int` type), then
the pass-through to `PoSValidator.add_stake`. -/
def Blockchain.stake (bc : Blockchain) (now : Rat) (validator : Bytes)
    (amount : Int) : Except PyErr Blockchain :=
  if amount > 2 ^ 64 then .error (.valueError "无效的质押金额")
  else
    match PoSValidator.add_stake bc.pos_validator now validator amount with
    | .error e => .error e
    | .ok pv => .ok { bc with pos_validator := pv }

/-- `Blockchain.get_stake`: `self.pos_validator.stakes.get(validator, 0)`. -/
def Blockchain.get_stake (bc : Blockchain) (validator : Bytes) : Int :=
  (dictGet bc.pos_validator.stakes validator).getD 0

/-! Concrete instances used to exercise the model.  `shaId` is a concrete
stand-in for the external `hashlib.sha256` capability (the claims under test
concern caching, mutation and control flow, never properties of the
compression function itself). -/

/-- A concrete hash capability for concrete runs: the identity on bytes. -/
def shaId : Bytes → Bytes := fun bs => bs

/-- A staked validator address. -/
def vA : Bytes := [1, 2, 3]

/-- An address that never stakes. -/
def vB : Bytes := [9]

/-- A fresh chain (genesis at time 0) with validator `vA` staking 100 at
time 0. -/
def bc1 : Blockchain :=
  match Blockchain.stake (Blockchain.init shaId 0) 0 vA 100 with
  | .ok c => c
  | .error _ => Blockchain.init shaId 0

/-- An environment whose ecdsa capability accepts every signature, with all
clock readings and draws at 0. -/
def envPos : Env :=
  { verify := fun _ _ _ => .ok true
    bases := []
    draw := 0
    selTime := 0
    pyHash := fun _ => 0
    startTime := 0
    endTime := 0 }

/-- The same environment with an ecdsa capability that rejects every
signature. -/
def envFalse : Env := { envPos with verify := fun _ _ _ => .ok false }

/-- A candidate block whose caller-supplied `prev_hash` (32 one-bytes) is not
the tip hash. -/
def cand : Block := Block.build shaId 1 0 [] (List.replicate 32 1) 0

/-- A candidate block carrying the out-of-position index 7. -/
def cand7 : Block := Block.build shaId 7 0 [] (List.replicate 32 1) 0

/-- The transaction of the source's `demo_usage`: `receiver=b"receiver_address"`,
`amount=100` (sender key and signature bytes are irrelevant to the message
under test). -/
def demoTx : Transaction := ⟨[], encodeStr "receiver_address", 100, [], 0⟩

/-- A candidate block carrying one transaction. -/
def candTx : Block := Block.build shaId 1 0 [demoTx] (List.replicate 32 0) 0

/-- A block record whose stored hash `[1]` fails every difficulty check. -/
def blockBad : Block := ⟨1, 0, [], List.replicate 32 0, 0, none, [1]⟩

/-- The concrete pos append of `cand` to `bc1`. -/
def addResult : Option (Except PyErr Unit × Blockchain) :=
  Blockchain.async_add_block bc1 envPos cand "pos"

/-- The chain state after `addResult`. -/
def bcAfter : Blockchain :=
  match addResult with
  | some (.ok _, c) => c
  | _ => Blockchain.init shaId 0

/-- The block `addResult` appended. -/
def appended : Block :=
  match bcAfter.chain.getLast? with
  | some x => x
  | none => cand

/-- The concrete pos append of `cand7` to `bc1`. -/
def addResult7 : Option (Except PyErr Unit × Blockchain) :=
  Blockchain.async_add_block bc1 envPos cand7 "pos"

/-- The chain state after `addResult7`. -/
def bcAfter7 : Blockchain :=
  match addResult7 with
  | some (.ok _, c) => c
  | _ => Blockchain.init shaId 0

/-- The registry after `add_stake` of 100 by `vA` at time 0 on an empty
registry. -/
def pv2W : PoSValidator :=
  match PoSValidator.add_stake ⟨[], []⟩ 0 vA 100 with
  | .ok p => p
  | .error _ => ⟨[], []⟩

/-! Lemmas about the mining search.  The load-bearing fact, visible in each
proof, is that assigning `nonce` is a plain field update that leaves the
stored `hash` untouched, so `validate` sees the same bytes at every attempt. -/

/-- Assigning `nonce` does not change what `validate` checks. -/
theorem validate_set_nonce (pv : PoWValidator) (b : Block) (x : Int) :
    pv.validate { b with nonce := x } = pv.validate b := rfl

/-- `validate` only reads the stored hash. -/
theorem validate_hash_congr (pv : PoWValidator) (b b2 : Block)
    (h : b2.hash = b.hash) : pv.validate b2 = pv.validate b := by
  simp [PoWValidator.validate, h]

/-- Unfolding of one iteration of the batch loop. -/
theorem mineGo_succ (pv : PoWValidator) (base : Int) (b : Block) (i n : Nat) :
    pv.mineGo base b i (n + 1)
      = if pv.validate { b with nonce := base + (i : Int) }
        then (some { b with nonce := base + (i : Int) }, { b with nonce := base + (i : Int) })
        else pv.mineGo base { b with nonce := base + (i : Int) } (i + 1) n := rfl

/-- The batch loop threads only `nonce` mutations: the loop's final block and
any returned block keep the entry block's `index` and `hash`. -/
theorem mineGo_preserves (pv : PoWValidator) (base : Int) :
    ∀ (n : Nat) (i : Nat) (b : Block),
      ((pv.mineGo base b i n).2.index = b.index ∧ (pv.mineGo base b i n).2.hash = b.hash
        ∧ (pv.mineGo base b i n).2.transactions = b.transactions)
      ∧ ∀ b2, (pv.mineGo base b i n).1 = some b2 →
          b2.index = b.index ∧ b2.hash = b.hash ∧ b2.transactions = b.transactions := by
  intro n
  induction n with
  | zero =>
    intro i b
    exact ⟨⟨rfl, rfl, rfl⟩, fun b2 h => by cases h⟩
  | succ n ih =>
    intro i b
    rw [mineGo_succ]
    by_cases hv : pv.validate { b with nonce := base + (i : Int) } = true
    · rw [if_pos hv]
      exact ⟨⟨rfl, rfl, rfl⟩, fun b2 h => by cases h; exact ⟨rfl, rfl, rfl⟩⟩
    · rw [if_neg hv]
      exact ih (i + 1) { b with nonce := base + (i : Int) }

/-- When the entry hash fails the difficulty check, no iteration of the batch
loop can succeed. -/
theorem mineGo_none (pv : PoWValidator) (base : Int) :
    ∀ (n : Nat) (i : Nat) (b : Block), pv.validate b = false →
      (pv.mineGo base b i n).1 = none := by
  intro n
  induction n with
  | zero => intro i b _; rfl
  | succ n ih =>
    intro i b hv
    have hv2 : pv.validate { b with nonce := base + (i : Int) } = false := hv
    rw [mineGo_succ, if_neg (by rw [hv2]; exact Bool.false_ne_true)]
    exact ih (i + 1) { b with nonce := base + (i : Int) } hv2

/-- When the entry hash already passes, the batch succeeds at its very first
nonce. -/
theorem mineGo_first (pv : PoWValidator) (base : Int) (n i : Nat) (b : Block)
    (hv : pv.validate b = true) :
    (pv.mineGo base b i (n + 1)).1 = some { b with nonce := base + (i : Int) } := by
  have hv2 : pv.validate { b with nonce := base + (i : Int) } = true := hv
  rw [mineGo_succ, if_pos hv2]

/-- A whole batch is decided by the hash the block entered with: it returns
the block with the batch's first nonce if that stale hash already passes, and
fails otherwise, the 1000 nonce assignments notwithstanding. -/
theorem mineBatch_fst (pv : PoWValidator) (b : Block) (base : Int) :
    (pv.mineBatch b base).1
      = if pv.validate b then some { b with nonce := base } else none := by
  by_cases hv : pv.validate b = true
  · rw [if_pos hv]
    have h := mineGo_first pv base 999 0 b hv
    rw [PoWValidator.mineBatch]
    rw [show (1000 : Nat) = 999 + 1 from rfl, h]
    norm_num
  · rw [Bool.not_eq_true] at hv
    rw [if_neg (by simp [hv])]
    exact mineGo_none pv base 1000 0 b hv

/-- `mine` diverges on every block whose stored hash fails the difficulty
check: every batch fails, however many random bases are drawn. -/
theorem mine_none (pv : PoWValidator) :
    ∀ (bases : List Int) (b : Block), pv.validate b = false →
      pv.mine b bases = none := by
  intro bases
  induction bases with
  | nil => intro b _; rfl
  | cons base rest ih =>
    intro b hv
    rcases hE : pv.mineBatch b base with ⟨f, s⟩
    have h1 : f = none := by
      have := mineGo_none pv base 1000 0 b hv
      rw [PoWValidator.mineBatch] at hE
      rw [hE] at this
      exact this
    subst h1
    have hs : s.hash = b.hash := by
      have := (mineGo_preserves pv base 1000 0 b).1.2.1
      rw [PoWValidator.mineBatch] at hE
      rw [hE] at this
      exact this
    rw [PoWValidator.mine, hE]
    exact ih s (by rw [validate_hash_congr pv b s hs]; exact hv)

/-- Whatever block `mine` returns kept the entry block's `index` and stored
`hash`. -/
theorem mine_some (pv : PoWValidator) :
    ∀ (bases : List Int) (b b2 : Block), pv.mine b bases = some b2 →
      b2.index = b.index ∧ b2.hash = b.hash ∧ b2.transactions = b.transactions := by
  intro bases
  induction bases with
  | nil => intro b b2 h; cases h
  | cons base rest ih =>
    intro b b2 h
    rcases hE : pv.mineBatch b base with ⟨f, s⟩
    have hpres := mineGo_preserves pv base 1000 0 b
    rw [PoWValidator.mineBatch] at hE
    rw [hE] at hpres
    rw [PoWValidator.mine] at h
    rw [PoWValidator.mineBatch] at h
    rw [hE] at h
    cases f with
    | some x =>
      cases h
      exact hpres.2 _ rfl
    | none =>
      have := ih s b2 h
      exact ⟨this.1.trans hpres.1.1, this.2.1.trans hpres.1.2.1,
        this.2.2.trans hpres.1.2.2⟩

/-- Reading back the key a dict assignment just wrote yields the written
value. -/
theorem dictGet_dictSet_self {α : Type} (d : List (Bytes × α)) (k : Bytes) (v : α) :
    dictGet (dictSet d k v) k = some v := by
  induction d with
  | nil => simp [dictGet, dictSet]
  | cons p rest ih =>
    by_cases h : p.1 = k
    · simp [dictGet, dictSet, h]
    · simp only [dictSet, if_neg h, dictGet, ih]

/-- Inversion of a successful `async_add_block`: the consensus branch
returned a block `b`, the chain had a tip, and the post-state appends `b`
with only its `prev_hash` overwritten by the tip's stored hash. -/
theorem async_add_block_ok (bc : Blockchain) (env : Env) (block : Block)
    (c : String) (u : Unit) (bc2 : Blockchain)
    (h : Blockchain.async_add_block bc env block c = some (.ok u, bc2)) :
    ∃ tip b, bc.chain.getLast? = some tip
      ∧ Blockchain.consensusStep bc env block c = some (.ok b)
      ∧ bc2 = { bc with
          chain := bc.chain ++ [{ b with prev_hash := tip.hash }]
          block_times := bc.block_times ++ [env.endTime - env.startTime]
          tx_counts := bc.tx_counts ++ [b.transactions.length] } := by
  rw [Blockchain.async_add_block] at h
  by_cases hall : block.transactions.all (Transaction.validate env.verify) = true
  · rw [if_pos hall] at h
    rcases hs : Blockchain.consensusStep bc env block c with _ | er
    · rw [hs] at h; cases h
    · rw [hs] at h
      rcases er with e | b
      · cases h
      · rcases ht : bc.chain.getLast? with _ | tip
        · rw [ht] at h; cases h
        · rw [ht] at h
          refine ⟨tip, b, rfl, rfl, ?_⟩
          cases h
          rfl
  · rw [if_neg hall] at h
    cases h

/-- The consensus branch never changes the candidate's `index`, `hash` or
transaction list: pow only reassigns `nonce` (see `mine_some`), pos only
assigns `nonce := hash(validator)`. -/
theorem consensusStep_ok (bc : Blockchain) (env : Env) (block : Block)
    (c : String) (b : Block)
    (h : Blockchain.consensusStep bc env block c = some (.ok b)) :
    b.index = block.index ∧ b.hash = block.hash
      ∧ b.transactions = block.transactions := by
  rw [Blockchain.consensusStep] at h
  by_cases hc : c = "pow"
  · rw [if_pos hc] at h
    rcases hm : PoWValidator.mine bc.pow_validator block env.bases with _ | x
    · rw [hm] at h; cases h
    · rw [hm] at h
      cases h
      exact mine_some bc.pow_validator env.bases block b hm
  · rw [if_neg hc] at h
    by_cases hc2 : c = "pos"
    · rw [if_pos hc2] at h
      rcases hv : PoSValidator.select_validator bc.pos_validator env.selTime env.draw with e | v
      · rw [hv] at h; cases h
      · rw [hv] at h
        cases h
        exact ⟨rfl, rfl, rfl⟩
    · rw [if_neg hc2] at h
      cases h

/-! The claims. -/

/-- C1: the claim says `mine` recomputes the block's hash after each nonce
assignment and returns as soon as `validate` succeeds, so a returned block's
hash (recomputed for its final nonce) starts with `difficulty` zero bytes.
In the code the nonce assignment is a plain attribute write and nothing
recomputes `hash`, so `validate` checks the stale construction-time digest at
every attempt: a whole 1000-nonce batch returns the block (with the batch's
first nonce) iff the entry hash was already valid, and when the entry hash is
invalid `mine` fails for every sequence of random base draws, i.e. the source
recurses forever. -/
theorem mine_checks_stale_hash (pv : PoWValidator) (b : Block) (base : Int)
    (bases : List Int) :
    (pv.mineBatch b base).1
      = (if pv.validate b then some { b with nonce := base } else none)
    ∧ (pv.validate b = false → pv.mine b bases = none) :=
  ⟨mineBatch_fst pv b base, fun h => mine_none pv bases b h⟩

/-- C1 witness: a concrete block whose stored hash `[1]` fails difficulty 1;
the batch finds nothing and `mine` fails for three supplied draws. -/
theorem mine_checks_stale_hash_witness :
    PoWValidator.validate ⟨1⟩ blockBad = false
    ∧ (PoWValidator.mineBatch ⟨1⟩ blockBad 5).1 = none
    ∧ PoWValidator.mine ⟨1⟩ blockBad [0, 1, 2] = none := by
  have h := mine_checks_stale_hash ⟨1⟩ blockBad 5 [0, 1, 2]
  refine ⟨by decide, ?_, h.2 (by decide)⟩
  rw [h.1]
  decide

/-- C2: the claim says `validate` checks the signature over the raw
concatenation `receiver || decimal(amount)`.  The code interpolates the
`bytes` field into an f-string, which inserts its Python repr: for the
transaction of the source's own demo (`receiver=b"receiver_address"`,
`amount=100`) the verified message carries the extra `b`-prefix and quote
bytes, so it differs from the raw concatenation the demo signs. -/
theorem validate_message_uses_repr :
    txMessage demoTx ≠ txMessageSpec demoTx
    ∧ txMessage demoTx
      = encodeStr "b" ++ [39] ++ encodeStr "receiver_address" ++ [39] ++ encodeStr "100" := by
  constructor
  · decide
  · decide

/-- C3: the claim says a successful `add_block` recomputes the block's hash
after overwriting `prev_hash`, so the appended block's stored hash equals a
fresh `calculate_hash` over its final fields.  In the code the overwrite is a
plain attribute write with no recomputation: in this concrete successful pos
append the appended block still carries its construction-time digest
(computed over the caller-supplied `prev_hash`), which differs from the hash
of a block freshly built from the appended block's final field values. -/
theorem add_block_keeps_stale_hash :
    addResult = some (.ok (), bcAfter)
    ∧ appended.hash = cand.hash
    ∧ appended.prev_hash ≠ cand.prev_hash
    ∧ appended.hash
      ≠ (Block.build shaId appended.index appended.timestamp appended.transactions
          appended.prev_hash appended.nonce).hash := by
  refine ⟨by with_unfolding_all rfl, by with_unfolding_all rfl,
    by with_unfolding_all decide, by with_unfolding_all decide⟩

/-- C4 counterexample: a successful append of a candidate carrying index 7
onto a 1-block chain leaves `chain[1].index = 7 ≠ 1`: the invariant
`chain[i].index == i` does not hold regardless of the caller-supplied
index. -/
theorem add_block_keeps_caller_index_cex :
    addResult7 = some (.ok (), bcAfter7)
    ∧ bcAfter7.chain.length = 2
    ∧ (bcAfter7.chain.get? 1).map Block.index = some 7 := by
  refine ⟨by with_unfolding_all rfl, by with_unfolding_all decide,
    by with_unfolding_all decide⟩

/-- C4 amended: every successful `add_block` appends exactly one block whose
`index` is whatever the caller supplied on the candidate — `add_block` never
rewrites it, so `chain[i].index == i` holds only if callers supply the index
matching the insertion position. -/
theorem add_block_preserves_caller_index (bc : Blockchain) (env : Env)
    (b : Block) (c : String) (u : Unit) (bc2 : Blockchain)
    (h : Blockchain.async_add_block bc env b c = some (.ok u, bc2)) :
    ∃ ab, bc2.chain = bc.chain ++ [ab] ∧ ab.index = b.index := by
  obtain ⟨tip, bm, _, hstep, hbc2⟩ := async_add_block_ok bc env b c u bc2 h
  exact ⟨{ bm with prev_hash := tip.hash }, by rw [hbc2],
    (consensusStep_ok bc env b c bm hstep).1⟩

/-- C4 amended witness: the concrete pos append of `cand` (caller index 1). -/
theorem add_block_preserves_caller_index_witness :
    ∃ ab, bcAfter.chain = bc1.chain ++ [ab] ∧ ab.index = cand.index :=
  add_block_preserves_caller_index bc1 envPos cand "pos" () bcAfter
    (by with_unfolding_all rfl)

/-- C5: every successful `add_block` had a chain tip, and appends exactly one
block whose stored `prev_hash` is that tip's stored hash — the overwrite
`block.prev_hash = self.chain[-1].hash` happens right before the append, so
`chain[-1].prev_hash == chain[-2].hash` afterwards whatever `prev_hash` the
caller supplied. -/
theorem add_block_links_prev_hash (bc : Blockchain) (env : Env) (b : Block)
    (c : String) (u : Unit) (bc2 : Blockchain)
    (h : Blockchain.async_add_block bc env b c = some (.ok u, bc2)) :
    ∃ tip ab, bc.chain.getLast? = some tip
      ∧ bc2.chain = bc.chain ++ [ab] ∧ ab.prev_hash = tip.hash := by
  obtain ⟨tip, bm, htip, _, hbc2⟩ := async_add_block_ok bc env b c u bc2 h
  exact ⟨tip, { bm with prev_hash := tip.hash }, htip, by rw [hbc2], rfl⟩

/-- C5 witness: the concrete pos append, whose candidate deliberately carried
a `prev_hash` different from the tip hash. -/
theorem add_block_links_prev_hash_witness :
    ∃ tip ab, bc1.chain.getLast? = some tip
      ∧ bcAfter.chain = bc1.chain ++ [ab] ∧ ab.prev_hash = tip.hash :=
  add_block_links_prev_hash bc1 envPos cand "pos" () bcAfter
    (by with_unfolding_all rfl)

/-- C6: on a block whose transactions all validate, an unsupported consensus
string raises `ValueError("不支持的共识机制")` with the blockchain state (chain
and metrics) unchanged; a block with any failing transaction raises
`ValueError("包含无效交易")` with the state unchanged. -/
theorem add_block_error_paths (bc : Blockchain) (env : Env) (b : Block)
    (c : String) :
    (b.transactions.all (Transaction.validate env.verify) = true →
      c ≠ "pow" → c ≠ "pos" →
      Blockchain.async_add_block bc env b c
        = some (.error (.valueError "不支持的共识机制"), bc))
    ∧ (b.transactions.all (Transaction.validate env.verify) = false →
      Blockchain.async_add_block bc env b c
        = some (.error (.valueError "包含无效交易"), bc)) := by
  constructor
  · intro hall hpow hpos
    rw [Blockchain.async_add_block, if_pos hall, Blockchain.consensusStep,
      if_neg hpow, if_neg hpos]
  · intro hall
    rw [Blockchain.async_add_block, if_neg (by rw [hall]; exact Bool.false_ne_true)]

/-- C6 witness: consensus `"poa"` on an all-valid block, and a pow append of
a block whose transaction the ecdsa capability rejects; both leave `bc1`
untouched. -/
theorem add_block_error_paths_witness :
    Blockchain.async_add_block bc1 envPos cand "poa"
      = some (.error (.valueError "不支持的共识机制"), bc1)
    ∧ Blockchain.async_add_block bc1 envFalse candTx "pow"
      = some (.error (.valueError "包含无效交易"), bc1) :=
  ⟨(add_block_error_paths bc1 envPos cand "poa").1 (by decide) (by decide) (by decide),
   (add_block_error_paths bc1 envFalse candTx "pow").2 (by decide)⟩

/-- C7 counterexample: on an empty registry (`total = 0`, draw
`uniform(0,0) = 0`) the selection loop body never runs and `select_validator`
raises exactly `selectionFailedError`, the same `RuntimeError` the generic
no-weight-reaches-the-draw path raises — not a distinct condition. -/
theorem select_empty_generic_cex :
    PoSValidator.select_validator ⟨[], []⟩ 0 0 = .error selectionFailedError := rfl

/-- C7 amended: an empty registry is not rejected explicitly; for every clock
reading and every draw, `select_validator` on an empty registry falls through
to the same generic `RuntimeError("未能选择验证者")` (`SelectionFailed`)
raised when no validator's cumulative weight reaches the draw. -/
theorem select_empty_no_distinct_error (now r : Rat) :
    PoSValidator.select_validator ⟨[], []⟩ now r = .error selectionFailedError := rfl

/-- C8: after `add_stake` registers amount `a` for `v` at time `t0`,
`get_weighted_stake` at time `now` returns exactly
`stake * (1 + age/86400)` with `stake` the accumulated amount and
`age = now - t0` the time since that last stake modification; and for any
validator without a stake entry it raises `KeyError`. -/
theorem weighted_stake_correct (pv : PoSValidator) (v : Bytes) (a : Int)
    (t0 now : Rat) (pv2 : PoSValidator) :
    (PoSValidator.add_stake pv t0 v a = .ok pv2 →
      PoSValidator.get_weighted_stake pv2 now v
        = .ok ((((dictGet pv.stakes v).getD 0 + a : Int) : Rat)
            * (1 + (now - t0) / 86400)))
    ∧ (dictGet pv.stakes v = none →
      PoSValidator.get_weighted_stake pv now v = .error .keyError) := by
  constructor
  · intro h
    rw [PoSValidator.add_stake] at h
    by_cases ha : a ≤ 0
    · rw [if_pos ha] at h; cases h
    · rw [if_neg ha] at h
      cases h
      rw [PoSValidator.get_weighted_stake]
      rw [dictGet_dictSet_self, dictGet_dictSet_self]
  · intro h
    rw [PoSValidator.get_weighted_stake, h]

/-- C8 witness: staking 100 at time 0 and weighing one day (86400 s) later
doubles the weight to 200; the never-staked `vA` on the empty registry raises
`KeyError`. -/
theorem weighted_stake_correct_witness :
    PoSValidator.get_weighted_stake pv2W 86400 vA = .ok 200
    ∧ PoSValidator.get_weighted_stake ⟨[], []⟩ 0 vA = .error .keyError := by
  have h := weighted_stake_correct ⟨[], []⟩ vA 100 0 86400 pv2W
  have h2 := weighted_stake_correct ⟨[], []⟩ vA 100 0 0 ⟨[], []⟩
  refine ⟨?_, h2.2 rfl⟩
  have h1 := h.1 (by with_unfolding_all rfl)
  rw [h1]
  with_unfolding_all decide

/-- C9: `calculate_hash` is idempotent — a second call on the instance a
first call returned produces the same digest and the same instance, for any
hash capability and any block (the `(nonce, transaction_count)` pair is
untouched by the call) — and on a fresh instance (`_precomputed = None`) the
first call stores the static digest over `(index, timestamp, prev_hash)` in
the cache, which subsequent calls reuse unchanged. -/
theorem calculate_hash_idempotent_cached (sha : Bytes → Bytes) (b : Block) :
    Block.calculate_hash sha (Block.calculate_hash sha b).2
      = ((Block.calculate_hash sha b).1, (Block.calculate_hash sha b).2)
    ∧ (b.precomputed = none →
        (Block.calculate_hash sha b).2.precomputed
          = some (sha (encodeStr (baseStr b)))) := by
  rcases hp : b.precomputed with _ | d
  · constructor
    · rcases hs : sha (encodeStr (baseStr b)) with _ | ⟨x, xs⟩
      · simp [Block.calculate_hash, pythonFalsy, hp, hs, baseStr, dynamicStr]
      · simp [Block.calculate_hash, pythonFalsy, hp, hs, baseStr, dynamicStr]
    · intro _
      simp [Block.calculate_hash, pythonFalsy, hp]
  · rcases hd : d.isEmpty with _ | _
    · constructor
      · simp [Block.calculate_hash, pythonFalsy, hp, hd, baseStr, dynamicStr]
      · intro hcon; cases hcon
    · constructor
      · rcases hs : sha (encodeStr (baseStr b)) with _ | ⟨x, xs⟩
        · simp [Block.calculate_hash, pythonFalsy, hp, hd, hs, baseStr, dynamicStr]
        · simp [Block.calculate_hash, pythonFalsy, hp, hd, hs, baseStr, dynamicStr]
      · intro hcon; cases hcon

/-- C9 witness: a fresh instance (`blockBad`, cache `None`) under the
concrete hash capability. -/
theorem calculate_hash_idempotent_cached_witness :
    Block.calculate_hash shaId (Block.calculate_hash shaId blockBad).2
      = ((Block.calculate_hash shaId blockBad).1, (Block.calculate_hash shaId blockBad).2)
    ∧ (Block.calculate_hash shaId blockBad).2.precomputed
      = some (shaId (encodeStr (baseStr blockBad))) :=
  ⟨(calculate_hash_idempotent_cached shaId blockBad).1,
   (calculate_hash_idempotent_cached shaId blockBad).2 rfl⟩

/-- C10: `get_stake` on a validator with no stake entry returns the dict
`get` default 0 instead of failing, whatever the registry holds. -/
theorem get_stake_missing_returns_zero (bc : Blockchain) (v : Bytes)
    (h : dictGet bc.pos_validator.stakes v = none) :
    Blockchain.get_stake bc v = 0 := by
  rw [Blockchain.get_stake, h]
  rfl

/-- C10 witness: the never-staked address `vB` on the chain where only `vA`
staked. -/
theorem get_stake_missing_returns_zero_witness :
    dictGet bc1.pos_validator.stakes vB = none
    ∧ Blockchain.get_stake bc1 vB = 0 :=
  ⟨by decide, get_stake_missing_returns_zero bc1 vB (by decide)⟩

end BCModel
